import Mathlib

/-!
Verification of the ISM (Interpretive Structural Modelling) analysis engine
from `src/services/geminiService.ts` (`convertSSIMToIRM`,
`computeFinalReachabilityMatrix`, `performLevelPartitioning`,
`getCanonicalMatrix`, `runISMAnalysis`) against its specification.

Matrices (`BinaryMatrix = number[][]` in the source) are embedded as
`List (List Nat)`; the imperative array updates of the source are embedded as
folds over `List.range` updating a functional matrix `Nat → Nat → Nat`
(an in-place write `m[i][j] = v` becomes the pointwise override `upd m i j v`),
with `ofFun`/`cell` converting between the list form at the function
boundaries and the functional form inside the loops.
-/

namespace ISM

/-- `SSIMValue` from `types.ts`: the four relation judgments. -/
inductive SSIMValue where
  | V  -- i reaches j
  | A  -- j reaches i
  | X  -- both reach each other
  | O  -- no relation
  deriving DecidableEq, Repr

/-- `BinaryMatrix = number[][]` from `types.ts` (cells are 0/1 in practice). -/
abbrev BinaryMatrix := List (List Nat)

/-- `LevelPartition` from `types.ts`. -/
structure LevelPartition where
  level : Nat
  elements : List Nat
  deriving DecidableEq, Repr

/-- `ISMResult` from `types.ts`. -/
structure ISMResult where
  initialReachabilityMatrix : BinaryMatrix
  finalReachabilityMatrix : BinaryMatrix
  canonicalMatrix : BinaryMatrix
  levels : List LevelPartition
  deriving DecidableEq, Repr

/-- Reading `m[i][j]` from a list-of-rows matrix (0 when out of range,
matching a read of an absent JS array slot in the `=== 1` tests). -/
def cell (m : BinaryMatrix) (i j : Nat) : Nat := (m.getD i []).getD j 0

/-- Functional form of a matrix, used to embed the imperative loop bodies. -/
abbrev Mat := Nat → Nat → Nat

/-- Pointwise override: the embedding of the array write `m[i][j] = v`. -/
def upd (m : Mat) (i j v : Nat) : Mat :=
  fun a b => if a = i ∧ b = j then v else m a b

/-- View a list matrix as a functional matrix. -/
def toFun (m : BinaryMatrix) : Mat := fun i j => cell m i j

/-- Materialize an `n × n` list matrix from a functional matrix. -/
def ofFun (n : Nat) (f : Mat) : BinaryMatrix :=
  (List.range n).map (fun i => (List.range n).map (fun j => f i j))

theorem upd_apply (m : Mat) (i j v a b : Nat) :
    upd m i j v a b = if a = i ∧ b = j then v else m a b := rfl

theorem cell_ofFun (n : Nat) (f : Mat) (i j : Nat) :
    cell (ofFun n f) i j = if i < n ∧ j < n then f i j else 0 := by
  simp only [cell, ofFun, List.getD_eq_getElem?_getD, List.getElem?_map]
  rcases Nat.lt_or_ge i n with hi | hi
  · rw [List.getElem?_range hi]
    simp only [Option.map_some', Option.getD_some, List.getD_eq_getElem?_getD,
      List.getElem?_map]
    rcases Nat.lt_or_ge j n with hj | hj
    · rw [List.getElem?_range hj]
      simp [hi, hj]
    · rw [show (List.range n)[j]? = (none : Option Nat) from
        List.getElem?_eq_none (by simpa)]
      simp [Nat.not_lt_of_ge hj]
  · rw [show (List.range n)[i]? = (none : Option Nat) from
      List.getElem?_eq_none (by simpa)]
    simp [Nat.not_lt_of_ge hi]

theorem length_ofFun (n : Nat) (f : Mat) : (ofFun n f).length = n := by
  simp [ofFun]

theorem rows_ofFun (n : Nat) (f : Mat) :
    ∀ row ∈ ofFun n f, row.length = n := by
  intro row hrow
  simp only [ofFun, List.mem_map, List.mem_range] at hrow
  obtain ⟨i, _, rfl⟩ := hrow
  simp

theorem cell_eq_zero_of_ge (m : BinaryMatrix) (i j : Nat)
    (h : m.length ≤ i) : cell m i j = 0 := by
  simp only [cell, List.getD_eq_getElem?_getD]
  rw [List.getElem?_eq_none h]
  simp

theorem cell_lt_of_eq_one {m : BinaryMatrix} {i j : Nat}
    (hsq : ∀ row ∈ m, row.length = m.length) (h : cell m i j = 1) :
    i < m.length ∧ j < m.length := by
  by_cases hi : i < m.length
  · refine ⟨hi, ?_⟩
    by_contra hj
    simp only [cell, List.getD_eq_getElem?_getD] at h
    rw [List.getElem?_eq_getElem hi] at h
    simp only [Option.getD_some] at h
    have hlen : (m[i]).length = m.length := hsq _ (List.getElem_mem hi)
    rw [List.getElem?_eq_none (by omega)] at h
    simp at h
  · rw [cell_eq_zero_of_ge m i j (Nat.le_of_not_lt hi)] at h
    simp at h

/-! ### `computeFinalReachabilityMatrix` (geminiService.ts lines 137-153)

Warshall's algorithm: the source deep-copies the input
(`const matrix = irm.map((row) => [...row])`) and then, for every
`k`, `i`, `j` in `[0, size)`, sets `matrix[i][j] = 1` whenever
`matrix[i][k] === 1 && matrix[k][j] === 1`, in place on the copy. -/

/-- Body of the innermost loop: the conditional write `matrix[i][j] = 1`. -/
def wstep (k : Nat) (m : Mat) (i j : Nat) : Mat :=
  if m i k = 1 ∧ m k j = 1 then upd m i j 1 else m

/-- One pass of the outer `k` loop (the `i` and `j` loops). -/
def wpass (n k : Nat) (m : Mat) : Mat :=
  (List.range n).foldl (fun acc i =>
    (List.range n).foldl (fun acc2 j => wstep k acc2 i j) acc) m

/-- The full triple loop. -/
def warshall (n : Nat) (m : Mat) : Mat :=
  (List.range n).foldl (fun acc k => wpass n k acc) m

/-- `computeFinalReachabilityMatrix` from geminiService.ts: runs the triple
loop on a copy of the input (in the pure embedding, on its functional view)
and returns the result; `size = irm.length`. -/
def computeFinalReachabilityMatrix (irm : BinaryMatrix) : BinaryMatrix :=
  ofFun irm.length (warshall irm.length (toFun irm))

theorem wstep_cell (k : Nat) (m : Mat) (i j a b : Nat) :
    wstep k m i j a b
      = if (m i k = 1 ∧ m k j = 1) ∧ a = i ∧ b = j then 1 else m a b := by
  unfold wstep upd
  split_ifs <;> simp_all

theorem wstep_row_col (k : Nat) (m : Mat) (i j a b : Nat)
    (h : a = k ∨ b = k) : wstep k m i j a b = m a b := by
  rw [wstep_cell]
  split_ifs with hc
  · obtain ⟨⟨h1, h2⟩, rfl, rfl⟩ := hc
    rcases h with rfl | rfl
    · exact h2.symm
    · exact h1.symm
  · rfl

theorem wstep_mono (k : Nat) (m : Mat) (i j a b : Nat)
    (h : m a b = 1) : wstep k m i j a b = 1 := by
  unfold wstep upd
  split_ifs <;> simp [h]

theorem wstep_val (k : Nat) (m : Mat) (i j a b : Nat) :
    wstep k m i j a b = m a b ∨ wstep k m i j a b = 1 := by
  rw [wstep_cell]
  split_ifs
  · right
    rfl
  · left
    rfl

/-- Cell-level description of the inner `j` loop over row `i`: provided the
accumulated matrix still agrees with `m` on row `k` and at `(i, k)` (which
the loop preserves, since a write into row `k` or column `k` only re-writes
a `1` that is already there), each cell `(i, j)` with `j ∈ js` is set to `1`
exactly when `m i k = 1` and `m k j = 1`, and no other cell changes. -/
theorem rowFold_cell (k i : Nat) (js : List Nat) (m : Mat) :
    ∀ (m' : Mat), m' i k = m i k → (∀ c, m' k c = m k c) → ∀ a b,
      (js.foldl (fun acc j => wstep k acc i j) m') a b
        = if a = i ∧ b ∈ js ∧ m i k = 1 ∧ m k b = 1 then 1 else m' a b := by
  induction js with
  | nil => intro m' _ _ a b; simp
  | cons j rest ih =>
    intro m' hik hk a b
    simp only [List.foldl_cons]
    have hik' : wstep k m' i j i k = m i k := by
      rw [wstep_row_col k m' i j i k (Or.inr rfl)]; exact hik
    have hk' : ∀ c, wstep k m' i j k c = m k c := by
      intro c
      rw [wstep_row_col k m' i j k c (Or.inl rfl)]; exact hk c
    rw [ih _ hik' hk' a b, wstep_cell]
    simp only [hik, hk, List.mem_cons]
    split_ifs with hA hD1 hB hD2 hD3
    · rfl
    · exact absurd ⟨hA.1, Or.inr hA.2.1, hA.2.2⟩ hD1
    · rfl
    · refine absurd ⟨hB.2.1, Or.inl hB.2.2, hB.1.1, ?_⟩ hD2
      rw [hB.2.2]
      exact hB.1.2
    · rcases hD3.2.1 with hbj | hbr
      · refine absurd ⟨⟨hD3.2.2.1, ?_⟩, hD3.1, hbj⟩ hB
        rw [← hbj]
        exact hD3.2.2.2
      · exact absurd ⟨hD3.1, hbr, hD3.2.2⟩ hA
    · rfl

/-- Cell-level description of the two inner loops (`i` over `is`, `j` over
`[0, n)`): provided the accumulated matrix agrees with `m` on row `k` and
column `k`, cell `(a, b)` with `a ∈ is`, `b < n` becomes `1` exactly when
`m a k = 1` and `m k b = 1`, and no other cell changes. -/
theorem outerFold_cell (n k : Nat) (is : List Nat) (m : Mat) :
    ∀ (m' : Mat), (∀ c, m' c k = m c k) → (∀ c, m' k c = m k c) → ∀ a b,
      (is.foldl (fun acc i =>
          (List.range n).foldl (fun acc2 j => wstep k acc2 i j) acc) m') a b
        = if a ∈ is ∧ b < n ∧ m a k = 1 ∧ m k b = 1 then 1 else m' a b := by
  induction is with
  | nil => intro m' _ _ a b; simp
  | cons i rest ih =>
    intro m' hcol hrow a b
    simp only [List.foldl_cons]
    have hrowi := rowFold_cell k i (List.range n) m m' (hcol i) hrow
    have hcol' : ∀ c, (List.range n).foldl
        (fun acc2 j => wstep k acc2 i j) m' c k = m c k := by
      intro c
      rw [hrowi c k]
      split_ifs with hc
      · rw [hc.1]
        exact hc.2.2.1.symm
      · exact hcol c
    have hrow' : ∀ c, (List.range n).foldl
        (fun acc2 j => wstep k acc2 i j) m' k c = m k c := by
      intro c
      rw [hrowi k c]
      split_ifs with hc
      · exact hc.2.2.2.symm
      · exact hrow c
    rw [ih _ hcol' hrow' a b, hrowi a b]
    simp only [List.mem_range, List.mem_cons]
    split_ifs with hA hD1 hB hD2 hD3
    · rfl
    · exact absurd ⟨Or.inr hA.1, hA.2⟩ hD1
    · rfl
    · refine absurd ⟨Or.inl hB.1, hB.2.1, ?_, hB.2.2.2⟩ hD2
      rw [hB.1]
      exact hB.2.2.1
    · rcases hD3.1 with hai | har
      · refine absurd ⟨hai, hD3.2.1, ?_, hD3.2.2.2⟩ hB
        rw [← hai]
        exact hD3.2.2.1
      · exact absurd ⟨har, hD3.2⟩ hA
    · rfl

/-- Closed form of one full pass of the outer `k` loop: even though it runs
in place, a pass with pivot `k` behaves as the out-of-place update. -/
theorem wpass_cell (n k : Nat) (m : Mat) (a b : Nat) :
    wpass n k m a b
      = if a < n ∧ b < n ∧ m a k = 1 ∧ m k b = 1 then 1 else m a b := by
  unfold wpass
  rw [outerFold_cell n k (List.range n) m m (fun _ => rfl) (fun _ => rfl) a b]
  simp [List.mem_range]

/-- Paths in the graph of `m` (edges `m i j = 1`) whose intermediate
vertices are all `< bnd`; the standard invariant of Warshall's algorithm. -/
inductive PathB (m : Mat) : Nat → Nat → Nat → Prop where
  | edge {bnd i j : Nat} : m i j = 1 → PathB m bnd i j
  | comp {bnd i t j : Nat} :
      PathB m bnd i t → t < bnd → PathB m bnd t j → PathB m bnd i j

theorem PathB.mono {m : Mat} {bnd bnd' i j : Nat} (h : bnd ≤ bnd')
    (p : PathB m bnd i j) : PathB m bnd' i j := by
  induction p with
  | edge he => exact PathB.edge he
  | comp _ ht _ ih1 ih2 => exact PathB.comp ih1 (Nat.lt_of_lt_of_le ht h) ih2

theorem PathB.zero_iff (m : Mat) (i j : Nat) :
    PathB m 0 i j ↔ m i j = 1 := by
  constructor
  · intro p
    induction p with
    | edge he => exact he
    | comp _ ht _ _ _ => exact absurd ht (Nat.not_lt_zero _)
  · exact PathB.edge

theorem PathB.bounds {m : Mat} {n bnd i j : Nat}
    (hrange : ∀ a b, m a b = 1 → a < n ∧ b < n)
    (p : PathB m bnd i j) : i < n ∧ j < n := by
  induction p with
  | edge he => exact hrange _ _ he
  | comp _ _ _ ih1 ih2 => exact ⟨ih1.1, ih2.2⟩

/-- Peeling the top pivot off a bounded path: a path with intermediates
`< k + 1` is a path with intermediates `< k`, or passes through `k`. -/
theorem PathB.succ_elim {m : Mat} {k i j : Nat} (p : PathB m (k + 1) i j) :
    PathB m k i j ∨ (PathB m k i k ∧ PathB m k k j) := by
  induction p with
  | edge he => exact Or.inl (PathB.edge he)
  | comp _ ht _ ih1 ih2 =>
    rcases Nat.lt_succ_iff_lt_or_eq.mp ht with htk | rfl
    · rcases ih1 with h1 | ⟨h1a, h1b⟩
      · rcases ih2 with h2 | ⟨h2a, h2b⟩
        · exact Or.inl (PathB.comp h1 htk h2)
        · exact Or.inr ⟨PathB.comp h1 htk h2a, h2b⟩
      · rcases ih2 with h2 | ⟨h2a, h2b⟩
        · exact Or.inr ⟨h1a, PathB.comp h1b htk h2⟩
        · exact Or.inr ⟨h1a, h2b⟩
    · rcases ih1 with h1 | ⟨h1a, _⟩
      · rcases ih2 with h2 | ⟨_, h2b⟩
        · exact Or.inr ⟨h1, h2⟩
        · exact Or.inr ⟨h1, h2b⟩
      · rcases ih2 with h2 | ⟨_, h2b⟩
        · exact Or.inr ⟨h1a, h2⟩
        · exact Or.inr ⟨h1a, h2b⟩

/-- The invariant of the outer `k` loop: after the passes with pivots
`0, ..., cnt - 1`, a cell holds `1` exactly when the original matrix has a
path between its indices with all intermediate vertices `< cnt`. -/
theorem warshallAux_cell (n : Nat) (m : Mat)
    (hrange : ∀ a b, m a b = 1 → a < n ∧ b < n) :
    ∀ (cnt : Nat) (a b : Nat),
      ((List.range cnt).foldl (fun acc k => wpass n k acc) m) a b = 1
        ↔ PathB m cnt a b := by
  intro cnt
  induction cnt with
  | zero => simpa using fun a b => (PathB.zero_iff m a b).symm
  | succ c ih =>
    intro a b
    rw [List.range_succ, List.foldl_append, List.foldl_cons, List.foldl_nil,
      wpass_cell]
    constructor
    · intro h
      split_ifs at h with hc
      · exact PathB.comp (((ih a c).mp hc.2.2.1).mono (Nat.le_succ c))
          (Nat.lt_succ_self c) (((ih c b).mp hc.2.2.2).mono (Nat.le_succ c))
      · exact ((ih a b).mp h).mono (Nat.le_succ c)
    · intro p
      rcases p.succ_elim with hp | ⟨hp1, hp2⟩
      · split_ifs with hc
        · rfl
        · exact (ih a b).mpr hp
      · have hb1 := hp1.bounds hrange
        have hb2 := hp2.bounds hrange
        rw [if_pos ⟨hb1.1, hb2.2, (ih a c).mpr hp1, (ih c b).mpr hp2⟩]

/-- The cell of the full triple loop: `1` exactly on paths of the input. -/
theorem warshall_cell (n : Nat) (m : Mat)
    (hrange : ∀ a b, m a b = 1 → a < n ∧ b < n) (a b : Nat) :
    warshall n m a b = 1 ↔ PathB m n a b :=
  warshallAux_cell n m hrange n a b

/-- Each cell of the result is the input cell or `1` (the loop only ever
writes the constant `1`). -/
theorem warshall_val (n : Nat) (m : Mat) (a b : Nat) :
    warshall n m a b = m a b ∨ warshall n m a b = 1 := by
  unfold warshall wpass
  refine List.foldlRecOn (motive := fun acc => acc a b = m a b ∨ acc a b = 1)
    (List.range n) _ m (Or.inl rfl) ?_
  intro acc hacc k _
  refine List.foldlRecOn (motive := fun acc => acc a b = m a b ∨ acc a b = 1)
    (List.range n) _ acc hacc ?_
  intro acc2 hacc2 i _
  refine List.foldlRecOn (motive := fun acc => acc a b = m a b ∨ acc a b = 1)
    (List.range n) _ acc2 hacc2 ?_
  intro acc3 hacc3 j _
  rcases wstep_val k acc3 i j a b with h | h
  · rw [h]
    exact hacc3
  · rw [h]
    exact Or.inr rfl

/-- Monotonicity: a `1` of the input is never erased. -/
theorem warshall_mono (n : Nat) (m : Mat) (a b : Nat) (h : m a b = 1) :
    warshall n m a b = 1 := by
  unfold warshall wpass
  refine List.foldlRecOn (motive := fun acc => acc a b = 1)
    (List.range n) _ m h ?_
  intro acc hacc k _
  refine List.foldlRecOn (motive := fun acc => acc a b = 1)
    (List.range n) _ acc hacc ?_
  intro acc2 hacc2 i _
  refine List.foldlRecOn (motive := fun acc => acc a b = 1)
    (List.range n) _ acc2 hacc2 ?_
  intro acc3 hacc3 j _
  exact wstep_mono k acc3 i j a b hacc3

theorem pathB_iff_transGen (m : Mat) (n : Nat)
    (hrange : ∀ a b, m a b = 1 → a < n ∧ b < n) (i j : Nat) :
    PathB m n i j ↔ Relation.TransGen (fun a b => m a b = 1) i j := by
  constructor
  · intro p
    induction p with
    | edge he => exact Relation.TransGen.single he
    | comp _ _ _ ih1 ih2 => exact Relation.TransGen.trans ih1 ih2
  · intro h
    induction h with
    | single he => exact PathB.edge he
    | tail _ he ih =>
      exact PathB.comp ih (hrange _ _ he).1 (PathB.edge he)

/-! ### `getCanonicalMatrix` (geminiService.ts lines 218-239)

The source copies `frm` (`const skeleton = frm.map(row => [...row])`),
zeroes the diagonal of the copy, and then for every `(i, j)` with
`skeleton[i][j] === 1` scans `k` for an intermediate two-hop path
`frm[i][k] === 1 && frm[k][j] === 1` with `k !== i`, `k !== j`, removing
the direct edge (and `break`ing) when one is found. -/

/-- The inner `k` loop with its `break`: is there an intermediate vertex
`k < n`, `k ≠ i`, `k ≠ j`, with `f i k = 1` and `f k j = 1`? -/
def hasIntermediate (f : Mat) (n i j : Nat) : Bool :=
  (List.range n).any (fun k => k != i && k != j && f i k == 1 && f k j == 1)

/-- The loops of `getCanonicalMatrix` on the functional view: zero the
diagonal of the copy, then remove two-hop-redundant direct edges. -/
def canonAux (n : Nat) (f : Mat) : Mat :=
  let skeleton := (List.range n).foldl (fun s i => upd s i i 0) f
  (List.range n).foldl (fun s i =>
    (List.range n).foldl (fun s2 j =>
      if s2 i j = 1 ∧ hasIntermediate f n i j then upd s2 i j 0 else s2) s)
    skeleton

/-- `getCanonicalMatrix` from geminiService.ts; `size = frm.length`. -/
def getCanonicalMatrix (frm : BinaryMatrix) : BinaryMatrix :=
  ofFun frm.length (canonAux frm.length (toFun frm))

theorem hasIntermediate_iff (f : Mat) (n i j : Nat) :
    hasIntermediate f n i j = true
      ↔ ∃ k, k < n ∧ k ≠ i ∧ k ≠ j ∧ f i k = 1 ∧ f k j = 1 := by
  simp only [hasIntermediate, List.any_eq_true, List.mem_range,
    Bool.and_eq_true, bne_iff_ne, beq_iff_eq]
  constructor
  · rintro ⟨k, hk, ⟨⟨hki, hkj⟩, h1⟩, h2⟩
    exact ⟨k, hk, hki, hkj, h1, h2⟩
  · rintro ⟨k, hk, hki, hkj, h1, h2⟩
    exact ⟨k, hk, ⟨⟨hki, hkj⟩, h1⟩, h2⟩

theorem diagFold_cell (l : List Nat) :
    ∀ (f : Mat) (a b : Nat),
      (l.foldl (fun s i => upd s i i 0) f) a b
        = if a = b ∧ a ∈ l then 0 else f a b := by
  induction l with
  | nil => intro f a b; simp
  | cons i rest ih =>
    intro f a b
    simp only [List.foldl_cons]
    rw [ih]
    simp only [upd, List.mem_cons]
    by_cases hab : a = b
    · subst hab
      by_cases hmem : a ∈ rest
      · simp [hmem]
      · by_cases hai : a = i
        · subst hai
          simp [hmem]
        · simp [hmem, hai]
    · have hni : ¬(a = i ∧ b = i) := fun h => hab (h.1.trans h.2.symm)
      simp [hab, hni]

theorem canonInner_cell (f : Mat) (n i : Nat) (js : List Nat) :
    ∀ (s : Mat) (a b : Nat),
      (js.foldl (fun s2 j =>
          if s2 i j = 1 ∧ hasIntermediate f n i j then upd s2 i j 0 else s2)
        s) a b
        = if a = i ∧ b ∈ js ∧ s i b = 1 ∧ hasIntermediate f n i b then 0
          else s a b := by
  induction js with
  | nil => intro s a b; simp
  | cons j rest ih =>
    intro s a b
    simp only [List.foldl_cons, List.mem_cons]
    by_cases hw : s i j = 1 ∧ hasIntermediate f n i j = true
    · rw [if_pos hw, ih]
      by_cases hai : a = i
      · subst hai
        by_cases hbj : b = j
        · subst hbj
          rw [show upd s a b 0 a b = 0 from if_pos ⟨rfl, rfl⟩]
          rw [if_neg, if_pos ⟨rfl, Or.inl rfl, hw⟩]
          rintro ⟨-, -, h0, -⟩
          simp at h0
        · rw [show upd s a j 0 a b = s a b from if_neg (fun h => hbj h.2)]
          simp [hbj]
      · rw [show upd s i j 0 a b = s a b from if_neg (fun h => hai h.1)]
        simp [hai]
    · rw [if_neg hw, ih]
      by_cases hai : a = i
      · subst hai
        by_cases hbj : b = j
        · subst hbj
          rw [if_neg, if_neg]
          · rintro ⟨-, -, h1, h2⟩
            exact hw ⟨h1, h2⟩
          · rintro ⟨-, -, h1, h2⟩
            exact hw ⟨h1, h2⟩
        · simp [hbj]
      · simp [hai]

theorem canonOuter_cell (f : Mat) (n : Nat) (is : List Nat) :
    ∀ (s : Mat) (a b : Nat),
      (is.foldl (fun s i =>
          (List.range n).foldl (fun s2 j =>
            if s2 i j = 1 ∧ hasIntermediate f n i j then upd s2 i j 0 else s2)
            s) s) a b
        = if a ∈ is ∧ b < n ∧ s a b = 1 ∧ hasIntermediate f n a b then 0
          else s a b := by
  induction is with
  | nil => intro s a b; simp
  | cons i rest ih =>
    intro s a b
    simp only [List.foldl_cons]
    rw [ih]
    simp only [canonInner_cell, List.mem_range, List.mem_cons]
    by_cases hai : a = i
    · subst hai
      by_cases hbn : b < n
      · by_cases hs : s a b = 1 ∧ hasIntermediate f n a b = true
        · rw [show (if a = a ∧ b < n ∧ s a b = 1 ∧ hasIntermediate f n a b
                = true then 0 else s a b) = 0 from if_pos ⟨rfl, hbn, hs⟩]
          rw [if_neg, if_pos ⟨Or.inl rfl, hbn, hs⟩]
          rintro ⟨-, -, h0, -⟩
          simp at h0
        · rw [show (if a = a ∧ b < n ∧ s a b = 1 ∧ hasIntermediate f n a b
                = true then 0 else s a b) = s a b from
              if_neg (fun h => hs ⟨h.2.2.1, h.2.2.2⟩)]
          rw [if_neg (fun h => hs ⟨h.2.2.1, h.2.2.2⟩),
            if_neg (fun h => hs ⟨h.2.2.1, h.2.2.2⟩)]
      · rw [show (if a = a ∧ b < n ∧ s a b = 1 ∧ hasIntermediate f n a b
              = true then 0 else s a b) = s a b from
            if_neg (fun h => hbn h.2.1)]
        rw [if_neg (fun h => hbn h.2.1), if_neg (fun h => hbn h.2.1)]
    · rw [show (if a = i ∧ b < n ∧ s i b = 1 ∧ hasIntermediate f n i b
            = true then 0 else s a b) = s a b from if_neg (fun h => hai h.1)]
      by_cases hmem : a ∈ rest
      · simp [hmem, hai]
      · simp [hmem, hai]

theorem canonAux_cell (n : Nat) (f : Mat) (a b : Nat)
    (ha : a < n) (hb : b < n) :
    canonAux n f a b
      = if a = b then 0
        else if f a b = 1 ∧ hasIntermediate f n a b then 0 else f a b := by
  unfold canonAux
  rw [canonOuter_cell]
  simp only [diagFold_cell, List.mem_range]
  by_cases hab : a = b
  · subst hab
    rw [show (if a = a ∧ a < n then 0 else f a a) = 0 from if_pos ⟨rfl, ha⟩]
    rw [if_pos rfl, if_neg]
    rintro ⟨-, -, h0, -⟩
    simp at h0
  · rw [show (if a = b ∧ a < n then 0 else f a b) = f a b from
      if_neg (fun h => hab h.1)]
    rw [if_neg hab]
    by_cases hs : f a b = 1 ∧ hasIntermediate f n a b = true
    · rw [if_pos ⟨ha, hb, hs⟩, if_pos hs]
    · rw [if_neg (fun h => hs ⟨h.2.2.1, h.2.2.2⟩), if_neg hs]

/-! ### `convertSSIMToIRM` (geminiService.ts lines 92-131)

The source initializes an all-zero `size × size` matrix, sets
`matrix[i][i] = 1` at the head of each outer iteration, and for each
`j` in `(i, size)` resolves `const val = ssim[idI]?.[idJ] || SSIMValue.O`
(with `idI = ids[i]`, `idJ = ids[j]`) and writes the pair of cells
`matrix[i][j]`, `matrix[j][i]` according to the `V`/`A`/`X`/else branch. -/

/-- The lookup `ssim[idI]?.[idJ] || SSIMValue.O`: the two-level mapping is
modelled as a function to `Option`; a missing entry, and an out-of-range
identifier index (a JS `undefined` key, which the record does not contain),
default to `O`. -/
def lookupVal (ssim : String → String → Option SSIMValue)
    (oi oj : Option String) : SSIMValue :=
  match oi, oj with
  | some idI, some idJ => (ssim idI idJ).getD SSIMValue.O
  | _, _ => SSIMValue.O

/-- Body of the inner `j` loop: the four-way branch on the judgment,
writing `matrix[i][j]` then `matrix[j][i]`. -/
def irmStep (ids : List String) (ssim : String → String → Option SSIMValue)
    (m : Mat) (i j : Nat) : Mat :=
  let val := lookupVal ssim ids[i]? ids[j]?
  if val = SSIMValue.V then upd (upd m i j 1) j i 0
  else if val = SSIMValue.A then upd (upd m i j 0) j i 1
  else if val = SSIMValue.X then upd (upd m i j 1) j i 1
  else upd (upd m i j 0) j i 0

/-- The nested loops of `convertSSIMToIRM` on the functional view, starting
from the all-zero matrix. -/
def irmAux (size : Nat) (ids : List String)
    (ssim : String → String → Option SSIMValue) : Mat :=
  (List.range size).foldl (fun m i =>
    (List.range' (i + 1) (size - (i + 1))).foldl
      (fun m2 j => irmStep ids ssim m2 i j) (upd m i i 1))
    (fun _ _ => 0)

/-- `convertSSIMToIRM` from geminiService.ts. -/
def convertSSIMToIRM (size : Nat) (ids : List String)
    (ssim : String → String → Option SSIMValue) : BinaryMatrix :=
  ofFun size (irmAux size ids ssim)

/-- The encoding table of §4.1 of the spec, stated verbatim from the spec's
table: for a pair `(i, j)`, `i < j`, the judgment determines
`(M[i][j], M[j][i])`. -/
def specEncode : SSIMValue → Nat × Nat
  | SSIMValue.V => (1, 0)
  | SSIMValue.A => (0, 1)
  | SSIMValue.X => (1, 1)
  | SSIMValue.O => (0, 0)

theorem irmStep_cell (ids : List String)
    (ssim : String → String → Option SSIMValue) (m : Mat) (i j a b : Nat) :
    irmStep ids ssim m i j a b
      = if a = j ∧ b = i
          then (specEncode (lookupVal ssim ids[i]? ids[j]?)).2
        else if a = i ∧ b = j
          then (specEncode (lookupVal ssim ids[i]? ids[j]?)).1
        else m a b := by
  unfold irmStep
  cases hv : lookupVal ssim ids[i]? ids[j]? <;>
    simp [hv, specEncode, upd]

theorem irmInner_cell (ids : List String)
    (ssim : String → String → Option SSIMValue) (i : Nat) (js : List Nat)
    (hjs : i ∉ js) :
    ∀ (m : Mat) (a b : Nat),
      (js.foldl (fun m2 j => irmStep ids ssim m2 i j) m) a b
        = if a = i ∧ b ∈ js
            then (specEncode (lookupVal ssim ids[i]? ids[b]?)).1
          else if b = i ∧ a ∈ js
            then (specEncode (lookupVal ssim ids[i]? ids[a]?)).2
          else m a b := by
  induction js with
  | nil => intro m a b; simp
  | cons j rest ih =>
    have h1 : i ≠ j ∧ i ∉ rest := by simpa [List.mem_cons, not_or] using hjs
    intro m a b
    simp only [List.foldl_cons, List.mem_cons]
    rw [ih h1.2, irmStep_cell]
    by_cases hai : a = i
    · subst hai
      by_cases hbj : b = j
      · subst hbj
        by_cases hbr : b ∈ rest
        · simp [hbr]
        · simp [hbr, h1.1, Ne.symm h1.1]
      · by_cases hbr : b ∈ rest
        · simp [hbr]
        · simp [hbr, hbj, h1.1, h1.2, Ne.symm h1.1]
    · by_cases hbi : b = i
      · subst hbi
        by_cases haj : a = j
        · subst haj
          by_cases har : a ∈ rest
          · simp [har, hai, Ne.symm hai]
          · simp [har, hai, Ne.symm hai, h1.1, Ne.symm h1.1]
        · by_cases har : a ∈ rest
          · simp [har, hai, Ne.symm hai]
          · simp [har, haj, hai, Ne.symm hai, h1.2]
      · simp [hai, hbi]

theorem irmOuter_cell (ids : List String)
    (ssim : String → String → Option SSIMValue) (size : Nat)
    (is : List Nat) (hnd : is.Nodup) (hlt : ∀ x ∈ is, x < size) :
    ∀ (m : Mat) (a b : Nat),
      (is.foldl (fun m i =>
        (List.range' (i + 1) (size - (i + 1))).foldl
          (fun m2 j => irmStep ids ssim m2 i j) (upd m i i 1)) m) a b
        = if a = b ∧ a ∈ is then 1
          else if a ∈ is ∧ a < b ∧ b < size
            then (specEncode (lookupVal ssim ids[a]? ids[b]?)).1
          else if b ∈ is ∧ b < a ∧ a < size
            then (specEncode (lookupVal ssim ids[b]? ids[a]?)).2
          else m a b := by
  induction is with
  | nil => intro m a b; simp
  | cons i rest ih =>
    obtain ⟨hir, hnd'⟩ := List.nodup_cons.mp hnd
    have hisz : i < size := hlt i (List.mem_cons_self i rest)
    have hlt' : ∀ x ∈ rest, x < size := fun x hx =>
      hlt x (List.mem_cons_of_mem i hx)
    have hmemjs : ∀ x, x ∈ List.range' (i + 1) (size - (i + 1))
        ↔ i < x ∧ x < size := by
      intro x
      rw [List.mem_range'_1]
      omega
    have hinotjs : i ∉ List.range' (i + 1) (size - (i + 1)) := by
      rw [hmemjs]
      omega
    intro m a b
    simp only [List.foldl_cons, List.mem_cons]
    rw [ih hnd' hlt', irmInner_cell ids ssim i _ hinotjs]
    simp only [hmemjs, upd]
    by_cases hai : a = i
    · subst hai
      by_cases hbi : b = a
      · subst hbi
        simp [hir, lt_self_iff_false]
      · simp only [hir, hbi, Ne.symm hbi, List.mem_cons, false_or, or_false,
          and_false, false_and, if_false, eq_self_iff_true, true_or, true_and,
          lt_self_iff_false]
        split_ifs with h1 h2
        · obtain ⟨-, hba, -⟩ := h1
          obtain ⟨hab, -⟩ := h2
          omega
        · rfl
        · rfl
        · rfl
    · by_cases hbi : b = i
      · subst hbi
        simp [hai, hir, Ne.symm hai]
      · simp [hai, hbi]

/-! ### `performLevelPartitioning` (geminiService.ts lines 158-213)

The source iterates a `while (remainingElements.size > 0)` loop over a
`Set` seeded with `0, ..., size - 1` in insertion order (so iteration
order is ascending; deletions preserve the order of the survivors, which
the embedding models with an ordered list and `filter`).  Each iteration
collects the qualifying remaining elements; if none qualify, all remaining
elements are flushed as one final level and the loop breaks; otherwise
they become the next level, are removed, `currentLevel` is incremented,
and the loop breaks when `currentLevel > MAX_LEVELS` (`MAX_LEVELS =
size + 5`). -/

/-- The per-element test of one iteration: build the reachability set
`R(i)` and antecedent set `A(i)` restricted to the remaining set, intersect
(`reachable.filter((x) => antecedent.includes(x))`), and compare lengths
(`reachable.length === intersection.length`). -/
def qualifies (frm : BinaryMatrix) (remaining : List Nat) (i : Nat) : Bool :=
  let reachable := remaining.filter (fun j => cell frm i j == 1)
  let antecedent := remaining.filter (fun j => cell frm j i == 1)
  let intersection := reachable.filter (fun x => antecedent.contains x)
  reachable.length == intersection.length

/-- The `while` loop.  `budget` counts the productive iterations that the
post-increment `if (currentLevel > MAX_LEVELS) break` still allows, i.e.
`MAX_LEVELS - currentLevel + 1`; it reaches `0` exactly when the source
executes that `break`, and the recursion is structural on it. -/
def partitionGo (frm : BinaryMatrix) :
    Nat → List Nat → Nat → List LevelPartition
  | 0, _, _ => []
  | budget + 1, remaining, currentLevel =>
    if remaining.isEmpty then []
    else
      let currentLevelElements := remaining.filter (qualifies frm remaining)
      if currentLevelElements.isEmpty then
        [⟨currentLevel, remaining⟩]
      else
        ⟨currentLevel, currentLevelElements⟩ ::
          partitionGo frm budget
            (remaining.filter (fun e => !currentLevelElements.contains e))
            (currentLevel + 1)

/-- `performLevelPartitioning` from geminiService.ts: `size = frm.length`,
the remaining set starts as `{0, ..., size - 1}`, `currentLevel` starts at
`1`, and `MAX_LEVELS = size + 5` allows `size + 5` productive iterations
from `currentLevel = 1`. -/
def performLevelPartitioning (frm : BinaryMatrix) : List LevelPartition :=
  partitionGo frm (frm.length + 5) (List.range frm.length) 1

/-- The same loop without the `MAX_LEVELS` cap, used to state that the cap
is never the reason the source loop stops: recursion is on the size of the
remaining set, which every productive iteration strictly shrinks. -/
def partitionNC (frm : BinaryMatrix) (remaining : List Nat)
    (currentLevel : Nat) : List LevelPartition :=
  if remaining.isEmpty then []
  else
    if hc : (remaining.filter (qualifies frm remaining)).isEmpty then
      [⟨currentLevel, remaining⟩]
    else
      ⟨currentLevel, remaining.filter (qualifies frm remaining)⟩ ::
        partitionNC frm
          (remaining.filter
            (fun e => !(remaining.filter (qualifies frm remaining)).contains e))
          (currentLevel + 1)
termination_by remaining.length
decreasing_by
  simp only [List.isEmpty_iff] at hc
  obtain ⟨x, hx⟩ := List.exists_mem_of_ne_nil _ hc
  refine List.length_filter_lt_length_iff_exists.mpr ⟨x, ?_, ?_⟩
  · exact List.mem_of_mem_filter hx
  · simp [List.mem_of_mem_filter, hx]

theorem partitionGo_eq_NC (frm : BinaryMatrix) :
    ∀ (budget : Nat) (remaining : List Nat) (currentLevel : Nat),
      remaining.length ≤ budget →
      partitionGo frm budget remaining currentLevel
        = partitionNC frm remaining currentLevel := by
  intro budget
  induction budget with
  | zero =>
    intro remaining c hlen
    have hnil : remaining = [] := List.eq_nil_of_length_eq_zero (by omega)
    subst hnil
    rw [partitionNC]
    rfl
  | succ b ih =>
    intro remaining c hlen
    rw [partitionNC]
    simp only [partitionGo]
    by_cases hre : remaining.isEmpty
    · simp [hre]
    · simp only [hre, Bool.false_eq_true, if_false]
      by_cases hce : (remaining.filter (qualifies frm remaining)).isEmpty
      · simp [hce]
      · simp only [hce, Bool.false_eq_true, if_false, dite_false]
        have hlt : (remaining.filter
            (fun e => !(remaining.filter (qualifies frm remaining)).contains e)).length
            < remaining.length := by
          simp only [List.isEmpty_iff] at hce
          obtain ⟨x, hx⟩ := List.exists_mem_of_ne_nil _ hce
          refine List.length_filter_lt_length_iff_exists.mpr ⟨x, ?_, ?_⟩
          · exact List.mem_of_mem_filter hx
          · simp [List.elem_iff, hx]
        rw [ih _ _ (by omega)]

theorem partitionGo_flatten_perm (frm : BinaryMatrix) :
    ∀ (budget : Nat) (remaining : List Nat) (currentLevel : Nat),
      remaining.length ≤ budget →
      (((partitionGo frm budget remaining currentLevel).map
          LevelPartition.elements).flatten).Perm remaining := by
  intro budget
  induction budget with
  | zero =>
    intro remaining c hlen
    have hnil : remaining = [] := List.eq_nil_of_length_eq_zero (by omega)
    subst hnil
    simp [partitionGo]
  | succ b ih =>
    intro remaining c hlen
    simp only [partitionGo]
    by_cases hre : remaining.isEmpty
    · rw [List.isEmpty_iff] at hre
      simp [hre]
    · simp only [hre, Bool.false_eq_true, if_false]
      by_cases hce : (remaining.filter (qualifies frm remaining)).isEmpty
      · simp [hce]
      · simp only [hce, Bool.false_eq_true, if_false, List.map_cons, List.flatten_cons]
        have hlt : (remaining.filter
            (fun e => !(remaining.filter (qualifies frm remaining)).contains e)).length
            < remaining.length := by
          simp only [List.isEmpty_iff] at hce
          obtain ⟨x, hx⟩ := List.exists_mem_of_ne_nil _ hce
          refine List.length_filter_lt_length_iff_exists.mpr ⟨x, ?_, ?_⟩
          · exact List.mem_of_mem_filter hx
          · simp [List.elem_iff, hx]
        have hperm := ih (remaining.filter
            (fun e => !(remaining.filter (qualifies frm remaining)).contains e))
          (c + 1) (by omega)
        refine ((hperm.append_left _).trans ?_)
        have hcong : remaining.filter
            (fun e => !(remaining.filter (qualifies frm remaining)).contains e)
            = remaining.filter (fun e => !(qualifies frm remaining e)) := by
          refine List.filter_congr ?_
          intro x hx
          by_cases hq : qualifies frm remaining x
          · simp [hq, List.elem_iff, List.mem_filter, hx]
          · simp [hq, List.elem_iff, List.mem_filter]
        rw [hcong]
        exact List.filter_append_perm _ remaining

theorem partitionGo_levels_range (frm : BinaryMatrix) :
    ∀ (budget : Nat) (remaining : List Nat) (currentLevel : Nat),
      (partitionGo frm budget remaining currentLevel).map LevelPartition.level
        = List.range' currentLevel
            (partitionGo frm budget remaining currentLevel).length 1 := by
  intro budget
  induction budget with
  | zero => intro remaining c; simp [partitionGo]
  | succ b ih =>
    intro remaining c
    simp only [partitionGo]
    by_cases hre : remaining.isEmpty
    · simp [hre]
    · simp only [hre, Bool.false_eq_true, if_false]
      by_cases hce : (remaining.filter (qualifies frm remaining)).isEmpty
      · simp [hce, List.range'_succ]
      · simp only [hce, Bool.false_eq_true, if_false, List.map_cons, List.length_cons]
        rw [List.range'_succ, ih]

theorem partitionGo_elements_ne_nil (frm : BinaryMatrix) :
    ∀ (budget : Nat) (remaining : List Nat) (currentLevel : Nat),
      ∀ lv ∈ partitionGo frm budget remaining currentLevel,
        lv.elements ≠ [] := by
  intro budget
  induction budget with
  | zero => intro remaining c; simp [partitionGo]
  | succ b ih =>
    intro remaining c lv hlv
    simp only [partitionGo] at hlv
    by_cases hre : remaining.isEmpty
    · simp [hre] at hlv
    · simp only [hre, Bool.false_eq_true, if_false] at hlv
      by_cases hce : (remaining.filter (qualifies frm remaining)).isEmpty
      · simp only [hce, if_true, List.mem_singleton] at hlv
        subst hlv
        exact fun h => hre (List.isEmpty_iff.mpr h)
      · simp only [hce, Bool.false_eq_true, if_false, List.mem_cons] at hlv
        rcases hlv with rfl | hlv
        · exact fun h => hce (List.isEmpty_iff.mpr h)
        · exact ih _ _ lv hlv

theorem partitionGo_sorted (frm : BinaryMatrix) :
    ∀ (budget : Nat) (remaining : List Nat) (currentLevel : Nat),
      remaining.Pairwise (· < ·) →
      ∀ lv ∈ partitionGo frm budget remaining currentLevel,
        lv.elements.Pairwise (· < ·) := by
  intro budget
  induction budget with
  | zero => intro remaining c _; simp [partitionGo]
  | succ b ih =>
    intro remaining c hsorted lv hlv
    simp only [partitionGo] at hlv
    by_cases hre : remaining.isEmpty
    · simp [hre] at hlv
    · simp only [hre, Bool.false_eq_true, if_false] at hlv
      by_cases hce : (remaining.filter (qualifies frm remaining)).isEmpty
      · simp only [hce, if_true, List.mem_singleton] at hlv
        subst hlv
        exact hsorted
      · simp only [hce, Bool.false_eq_true, if_false, List.mem_cons] at hlv
        rcases hlv with rfl | hlv
        · exact hsorted.filter _
        · exact ih _ _ (hsorted.filter _) lv hlv

theorem partitionGo_length_le (frm : BinaryMatrix) :
    ∀ (budget : Nat) (remaining : List Nat) (currentLevel : Nat),
      remaining.length ≤ budget →
      (partitionGo frm budget remaining currentLevel).length
        ≤ remaining.length := by
  intro budget
  induction budget with
  | zero => intro remaining c hlen; simp [partitionGo]
  | succ b ih =>
    intro remaining c hlen
    simp only [partitionGo]
    by_cases hre : remaining.isEmpty
    · simp [hre]
    · simp only [hre, Bool.false_eq_true, if_false]
      by_cases hce : (remaining.filter (qualifies frm remaining)).isEmpty
      · simp only [hce, if_true, List.length_singleton]
        rw [List.isEmpty_iff] at hre
        exact Nat.one_le_iff_ne_zero.mpr (by simpa using hre)
      · simp only [hce, Bool.false_eq_true, if_false, List.length_cons]
        have hlt : (remaining.filter
            (fun e => !(remaining.filter (qualifies frm remaining)).contains e)).length
            < remaining.length := by
          simp only [List.isEmpty_iff] at hce
          obtain ⟨x, hx⟩ := List.exists_mem_of_ne_nil _ hce
          refine List.length_filter_lt_length_iff_exists.mpr ⟨x, ?_, ?_⟩
          · exact List.mem_of_mem_filter hx
          · simp [List.elem_iff, hx]
        have := ih (remaining.filter
            (fun e => !(remaining.filter (qualifies frm remaining)).contains e))
          (c + 1) (by omega)
        omega

/-! ### `runISMAnalysis` (geminiService.ts lines 241-262) -/

/-- `runISMAnalysis` from geminiService.ts: composes the pipeline.  The
source first checks `if (!ids || ids.length !== size)` and only
`console.error`s on a mismatch — it never aborts — so the check has no
effect on the returned value and the embedding proceeds exactly as the
source does after the log. -/
def runISMAnalysis (size : Nat) (ids : List String)
    (ssim : String → String → Option SSIMValue) : ISMResult :=
  let irm := convertSSIMToIRM size ids ssim
  let frm := computeFinalReachabilityMatrix irm
  let levels := performLevelPartitioning frm
  let canonicalMatrix := getCanonicalMatrix frm
  { initialReachabilityMatrix := irm
    finalReachabilityMatrix := frm
    canonicalMatrix := canonicalMatrix
    levels := levels }

/-! ### Reference-level model of the defensive copies

JS arrays are heap references: a `number[][]` value is an array of row
references and `m[i][j] = v` mutates a row object in place.  To state that
`computeFinalReachabilityMatrix` and `getCanonicalMatrix` never write
through their argument's references, rows live in a heap, a matrix value
is a list of row references, `m.map(row => [...row])` allocates fresh rows
at the end of the heap, and the loops of the two functions are repeated
with all writes going through the fresh references of the copy, exactly as
in the source. -/

abbrev RowHeap := List (List Nat)

/-- Dereference a row. -/
def hGet (h : RowHeap) (r : Nat) : List Nat := h.getD r []

/-- The write `row[j] = v` through row reference `r`. -/
def hWrite (h : RowHeap) (r j v : Nat) : RowHeap :=
  h.set r ((hGet h r).set j v)

/-- Read a whole matrix value through its row references. -/
def readMat (h : RowHeap) (m : List Nat) : List (List Nat) :=
  m.map (hGet h)

/-- `m.map(row => [...row])`: allocate fresh copies of the rows at the end
of the heap; the copy's row references are `h.length, h.length + 1, ...`. -/
def allocCopy (h : RowHeap) (m : List Nat) : RowHeap × List Nat :=
  (h ++ readMat h m, (List.range m.length).map (fun r => r + h.length))

/-- `computeFinalReachabilityMatrix` with explicit references (lines
137-153): deep-copy the argument, then run the triple loop reading and
writing only through the fresh row references of the copy. -/
def computeFinalReachabilityMatrixH (h : RowHeap) (irm : List Nat) :
    RowHeap × List Nat :=
  let size := irm.length
  let alloc := allocCopy h irm
  let mref := alloc.2
  let h2 := (List.range size).foldl (fun hh k =>
    (List.range size).foldl (fun hh2 i =>
      (List.range size).foldl (fun hh3 j =>
        if (hGet hh3 (mref.getD i 0)).getD k 0 = 1
            ∧ (hGet hh3 (mref.getD k 0)).getD j 0 = 1
        then hWrite hh3 (mref.getD i 0) j 1 else hh3) hh2) hh) alloc.1
  (h2, mref)

/-- `getCanonicalMatrix` with explicit references (lines 218-239): copy
`frm`, zero the diagonal of the copy, and remove two-hop-redundant edges;
writes go through the copy's references, the intermediate-vertex scan reads
through the argument's references. -/
def getCanonicalMatrixH (h : RowHeap) (frm : List Nat) :
    RowHeap × List Nat :=
  let size := frm.length
  let alloc := allocCopy h frm
  let sref := alloc.2
  let h1 := (List.range size).foldl
    (fun hh i => hWrite hh (sref.getD i 0) i 0) alloc.1
  let h2 := (List.range size).foldl (fun hh i =>
    (List.range size).foldl (fun hh2 j =>
      if (hGet hh2 (sref.getD i 0)).getD j 0 = 1
          ∧ ((List.range size).any (fun k => k != i && k != j
              && (hGet hh2 (frm.getD i 0)).getD k 0 == 1
              && (hGet hh2 (frm.getD k 0)).getD j 0 == 1))
      then hWrite hh2 (sref.getD i 0) j 0 else hh2) hh) h1
  (h2, sref)

/-- Frame predicate: the heap only grew, and every pre-existing row
reference dereferences exactly as before. -/
def Frames (h H : RowHeap) : Prop :=
  h.length ≤ H.length ∧ ∀ r, r < h.length → hGet H r = hGet h r

theorem frames_alloc (h : RowHeap) (rows : List (List Nat)) :
    Frames h (h ++ rows) := by
  constructor
  · simp
  · intro r hr
    simp only [hGet, List.getD_eq_getElem?_getD]
    rw [List.getElem?_append_left hr]

theorem frames_hWrite {h H : RowHeap} (hf : Frames h H) {r j v : Nat}
    (hr : h.length ≤ r) : Frames h (hWrite H r j v) := by
  refine ⟨by simpa [hWrite] using hf.1, ?_⟩
  intro s hs
  have hsr : s ≠ r := by omega
  simp only [hWrite, hGet, List.getD_eq_getElem?_getD]
  rw [List.getElem?_set_ne (Ne.symm hsr)]
  have := hf.2 s hs
  simpa [hGet, List.getD_eq_getElem?_getD] using this

theorem readMat_congr {h H : RowHeap} (hf : Frames h H) {m : List Nat}
    (hm : ∀ r ∈ m, r < h.length) : readMat H m = readMat h m :=
  List.map_congr_left (fun r hr => hf.2 r (hm r hr))

theorem copyRef_ge (h : RowHeap) (m : List Nat) (i : Nat) (hi : i < m.length) :
    ((allocCopy h m).2).getD i 0 = i + h.length := by
  simp only [allocCopy, List.getD_eq_getElem?_getD]
  rw [List.getElem?_map, List.getElem?_range hi]
  rfl

theorem frames_computeFinalReachabilityMatrixH (h : RowHeap)
    (irm : List Nat) : Frames h (computeFinalReachabilityMatrixH h irm).1 := by
  unfold computeFinalReachabilityMatrixH
  refine List.foldlRecOn (motive := Frames h) (List.range irm.length) _ _
    (frames_alloc h _) ?_
  intro hh hfh k _
  refine List.foldlRecOn (motive := Frames h) (List.range irm.length) _ _
    hfh ?_
  intro hh2 hfh2 i hi
  refine List.foldlRecOn (motive := Frames h) (List.range irm.length) _ _
    hfh2 ?_
  intro hh3 hfh3 j _
  split_ifs
  · refine frames_hWrite hfh3 ?_
    rw [copyRef_ge h irm i (List.mem_range.mp hi)]
    omega
  · exact hfh3

theorem frames_getCanonicalMatrixH (h : RowHeap) (frm : List Nat) :
    Frames h (getCanonicalMatrixH h frm).1 := by
  unfold getCanonicalMatrixH
  have h1 : Frames h ((List.range frm.length).foldl
      (fun hh i => hWrite hh ((allocCopy h frm).2.getD i 0) i 0)
      (allocCopy h frm).1) := by
    refine List.foldlRecOn (motive := Frames h) (List.range frm.length) _ _
      (frames_alloc h _) ?_
    intro hh hfh i hi
    refine frames_hWrite hfh ?_
    rw [copyRef_ge h frm i (List.mem_range.mp hi)]
    omega
  refine List.foldlRecOn (motive := Frames h) (List.range frm.length) _ _
    h1 ?_
  intro hh hfh i hi
  refine List.foldlRecOn (motive := Frames h) (List.range frm.length) _ _
    hfh ?_
  intro hh2 hfh2 j _
  split_ifs
  · refine frames_hWrite hfh2 ?_
    rw [copyRef_ge h frm i (List.mem_range.mp hi)]
    omega
  · exact hfh2

/-! ### Cell-level corollaries at the list-matrix boundary -/

theorem cell_binary {m : BinaryMatrix}
    (hbin : ∀ row ∈ m, ∀ v ∈ row, v = 0 ∨ v = 1) (a b : Nat) :
    cell m a b = 0 ∨ cell m a b = 1 := by
  by_cases ha : a < m.length
  · have hrow : m.getD a [] = m[a] := by
      rw [List.getD_eq_getElem?_getD, List.getElem?_eq_getElem ha]
      rfl
    unfold cell
    rw [hrow]
    by_cases hb : b < (m[a]).length
    · have hv : (m[a]).getD b 0 = (m[a])[b] := by
        rw [List.getD_eq_getElem?_getD, List.getElem?_eq_getElem hb]
        rfl
      rw [hv]
      exact hbin _ (List.getElem_mem ha) _ (List.getElem_mem hb)
    · left
      rw [List.getD_eq_getElem?_getD, List.getElem?_eq_none (by omega)]
      rfl
  · left
    exact cell_eq_zero_of_ge _ _ _ (by omega)

theorem toFun_range {irm : BinaryMatrix}
    (hsq : ∀ row ∈ irm, row.length = irm.length) :
    ∀ a b, toFun irm a b = 1 → a < irm.length ∧ b < irm.length :=
  fun _ _ h => cell_lt_of_eq_one hsq h

theorem cfrm_cell (irm : BinaryMatrix) (a b : Nat) :
    cell (computeFinalReachabilityMatrix irm) a b
      = if a < irm.length ∧ b < irm.length
        then warshall irm.length (toFun irm) a b else 0 := by
  unfold computeFinalReachabilityMatrix
  rw [cell_ofFun]

theorem cfrm_superset (irm : BinaryMatrix)
    (hsq : ∀ row ∈ irm, row.length = irm.length) (a b : Nat)
    (h : cell irm a b = 1) :
    cell (computeFinalReachabilityMatrix irm) a b = 1 := by
  have hab := cell_lt_of_eq_one hsq h
  rw [cfrm_cell, if_pos hab]
  exact warshall_mono _ _ _ _ h

theorem cfrm_one_iff (irm : BinaryMatrix)
    (hsq : ∀ row ∈ irm, row.length = irm.length) (a b : Nat) :
    cell (computeFinalReachabilityMatrix irm) a b = 1
      ↔ PathB (toFun irm) irm.length a b := by
  rw [cfrm_cell]
  split_ifs with hab
  · exact warshall_cell irm.length (toFun irm) (toFun_range hsq) a b
  · constructor
    · intro h0
      simp at h0
    · intro hp
      exact absurd (hp.bounds (toFun_range hsq)) hab

theorem cfrm_trans (irm : BinaryMatrix)
    (hsq : ∀ row ∈ irm, row.length = irm.length) (a t b : Nat)
    (h1 : cell (computeFinalReachabilityMatrix irm) a t = 1)
    (h2 : cell (computeFinalReachabilityMatrix irm) t b = 1) :
    cell (computeFinalReachabilityMatrix irm) a b = 1 := by
  rw [cfrm_one_iff irm hsq] at h1 h2 ⊢
  exact PathB.comp h1 (h1.bounds (toFun_range hsq)).2 h2

theorem cfrm_rtc (irm : BinaryMatrix)
    (hsq : ∀ row ∈ irm, row.length = irm.length)
    (hrefl : ∀ i, i < irm.length → cell irm i i = 1) (i j : Nat)
    (hi : i < irm.length) (hj : j < irm.length) :
    cell (computeFinalReachabilityMatrix irm) i j = 1
      ↔ Relation.ReflTransGen (fun a b => cell irm a b = 1) i j := by
  rw [cfrm_one_iff irm hsq,
    pathB_iff_transGen (toFun irm) irm.length (toFun_range hsq)]
  constructor
  · intro h
    exact h.to_reflTransGen
  · intro h
    rcases (Relation.reflTransGen_iff_eq_or_transGen.mp h) with heq | ht
    · subst heq
      exact Relation.TransGen.single (hrefl _ (by omega))
    · exact ht

theorem cfrm_binary (irm : BinaryMatrix)
    (hbin : ∀ row ∈ irm, ∀ v ∈ row, v = 0 ∨ v = 1) (a b : Nat) :
    cell (computeFinalReachabilityMatrix irm) a b = 0
      ∨ cell (computeFinalReachabilityMatrix irm) a b = 1 := by
  rw [cfrm_cell]
  split_ifs
  · rcases warshall_val irm.length (toFun irm) a b with h | h
    · rw [h]
      exact cell_binary hbin a b
    · right
      exact h
  · left
    rfl

theorem canon_cell (frm : BinaryMatrix) (a b : Nat) (ha : a < frm.length)
    (hb : b < frm.length) :
    cell (getCanonicalMatrix frm) a b
      = if a = b then 0
        else if toFun frm a b = 1
            ∧ hasIntermediate (toFun frm) frm.length a b = true then 0
        else toFun frm a b := by
  unfold getCanonicalMatrix
  rw [cell_ofFun, if_pos ⟨ha, hb⟩, canonAux_cell _ _ _ _ ha hb]

theorem canon_diag (frm : BinaryMatrix) (a : Nat) :
    cell (getCanonicalMatrix frm) a a = 0 := by
  by_cases ha : a < frm.length
  · rw [canon_cell frm a a ha ha, if_pos rfl]
  · unfold getCanonicalMatrix
    rw [cell_ofFun, if_neg (fun h => ha h.1)]

theorem irmAux_cell (size : Nat) (ids : List String)
    (ssim : String → String → Option SSIMValue) (a b : Nat) :
    irmAux size ids ssim a b
      = if a = b ∧ a < size then 1
        else if a < b ∧ b < size
          then (specEncode (lookupVal ssim ids[a]? ids[b]?)).1
        else if b < a ∧ a < size
          then (specEncode (lookupVal ssim ids[b]? ids[a]?)).2
        else 0 := by
  unfold irmAux
  rw [irmOuter_cell ids ssim size (List.range size) (List.nodup_range size)
    (fun x hx => List.mem_range.mp hx)]
  simp only [List.mem_range]
  split_ifs <;> first
    | rfl
    | omega

theorem irm_cell (size : Nat) (ids : List String)
    (ssim : String → String → Option SSIMValue) (a b : Nat) :
    cell (convertSSIMToIRM size ids ssim) a b
      = if a < size ∧ b < size then irmAux size ids ssim a b else 0 := by
  unfold convertSSIMToIRM
  rw [cell_ofFun]

theorem irm_diag (size : Nat) (ids : List String)
    (ssim : String → String → Option SSIMValue) (i : Nat) (hi : i < size) :
    cell (convertSSIMToIRM size ids ssim) i i = 1 := by
  rw [irm_cell, if_pos ⟨hi, hi⟩, irmAux_cell, if_pos ⟨rfl, hi⟩]

theorem irm_upper (size : Nat) (ids : List String)
    (ssim : String → String → Option SSIMValue) {i j : Nat} (hij : i < j)
    (hj : j < size) :
    cell (convertSSIMToIRM size ids ssim) i j
        = (specEncode (lookupVal ssim ids[i]? ids[j]?)).1
      ∧ cell (convertSSIMToIRM size ids ssim) j i
        = (specEncode (lookupVal ssim ids[i]? ids[j]?)).2 := by
  constructor
  · rw [irm_cell, if_pos ⟨by omega, hj⟩, irmAux_cell,
      if_neg (by omega), if_pos ⟨hij, hj⟩]
  · rw [irm_cell, if_pos ⟨hj, by omega⟩, irmAux_cell,
      if_neg (by omega), if_neg (by omega), if_pos ⟨hij, hj⟩]

/-! ### Reachability preservation of the canonical matrix

On an antisymmetric closure (a partial order), every closure edge is
recoverable as a chain of kept canonical edges: induction on the size of
the order interval between the endpoints.  (On closures with a non-trivial
cycle this fails — see the counterexample for C3 below.) -/

/-- The set of vertices on some two-leg path `i → k → j` of `frm`
(the order interval `[i, j]` when `frm` is a reflexive transitive
antisymmetric closure). -/
def interval (frm : BinaryMatrix) (i j : Nat) : Finset Nat :=
  (Finset.range frm.length).filter
    (fun k => cell frm i k = 1 ∧ cell frm k j = 1)

theorem interval_subset_left (frm : BinaryMatrix)
    (htrans : ∀ a b c, cell frm a b = 1 → cell frm b c = 1 →
      cell frm a c = 1) {i j k : Nat} (hkj : cell frm k j = 1) :
    interval frm i k ⊆ interval frm i j := by
  intro m hm
  simp only [interval, Finset.mem_filter, Finset.mem_range] at hm ⊢
  exact ⟨hm.1, hm.2.1, htrans m k j hm.2.2 hkj⟩

theorem interval_subset_right (frm : BinaryMatrix)
    (htrans : ∀ a b c, cell frm a b = 1 → cell frm b c = 1 →
      cell frm a c = 1) {i j k : Nat} (hik : cell frm i k = 1) :
    interval frm k j ⊆ interval frm i j := by
  intro m hm
  simp only [interval, Finset.mem_filter, Finset.mem_range] at hm ⊢
  exact ⟨hm.1, htrans i k m hik hm.2.1, hm.2.2⟩

theorem canon_reachable_aux (frm : BinaryMatrix)
    (hsq : ∀ row ∈ frm, row.length = frm.length)
    (hrefl : ∀ i, i < frm.length → cell frm i i = 1)
    (htrans : ∀ a b c, cell frm a b = 1 → cell frm b c = 1 →
      cell frm a c = 1)
    (hanti : ∀ a b, cell frm a b = 1 → cell frm b a = 1 → a = b) :
    ∀ (N i j : Nat), (interval frm i j).card ≤ N → i ≠ j →
      cell frm i j = 1 →
      Relation.TransGen
        (fun a b => cell (getCanonicalMatrix frm) a b = 1) i j := by
  intro N
  induction N with
  | zero =>
    intro i j hcard hij hedge
    exfalso
    have hj : j < frm.length := (cell_lt_of_eq_one hsq hedge).2
    have hjmem : j ∈ interval frm i j := by
      simp only [interval, Finset.mem_filter, Finset.mem_range]
      exact ⟨hj, hedge, hrefl j hj⟩
    have hpos : 0 < (interval frm i j).card := Finset.card_pos.mpr ⟨j, hjmem⟩
    omega
  | succ N ih =>
    intro i j hcard hij hedge
    have hi : i < frm.length := (cell_lt_of_eq_one hsq hedge).1
    have hj : j < frm.length := (cell_lt_of_eq_one hsq hedge).2
    by_cases hint : hasIntermediate (toFun frm) frm.length i j = true
    · rw [hasIntermediate_iff] at hint
      obtain ⟨k, hkn, hki, hkj, h1, h2⟩ := hint
      have h1' : cell frm i k = 1 := h1
      have h2' : cell frm k j = 1 := h2
      have hjmem : j ∈ interval frm i j := by
        simp only [interval, Finset.mem_filter, Finset.mem_range]
        exact ⟨hj, hedge, hrefl j hj⟩
      have himem : i ∈ interval frm i j := by
        simp only [interval, Finset.mem_filter, Finset.mem_range]
        exact ⟨hi, hrefl i hi, hedge⟩
      have hnot1 : j ∉ interval frm i k := by
        simp only [interval, Finset.mem_filter, Finset.mem_range]
        rintro ⟨-, -, hjk⟩
        exact hkj (hanti j k hjk h2').symm
      have hnot2 : i ∉ interval frm k j := by
        simp only [interval, Finset.mem_filter, Finset.mem_range]
        rintro ⟨-, hki2, -⟩
        exact hki (hanti i k h1' hki2).symm
      have hc1 : (interval frm i k).card ≤ N := by
        have hss : interval frm i k ⊂ interval frm i j :=
          (Finset.ssubset_iff_of_subset
            (interval_subset_left frm htrans h2')).mpr ⟨j, hjmem, hnot1⟩
        have := Finset.card_lt_card hss
        omega
      have hc2 : (interval frm k j).card ≤ N := by
        have hss : interval frm k j ⊂ interval frm i j :=
          (Finset.ssubset_iff_of_subset
            (interval_subset_right frm htrans h1')).mpr ⟨i, himem, hnot2⟩
        have := Finset.card_lt_card hss
        omega
      exact Relation.TransGen.trans
        (ih i k hc1 (fun h => hki h.symm) h1')
        (ih k j hc2 hkj h2')
    · refine Relation.TransGen.single ?_
      rw [canon_cell frm i j hi hj, if_neg hij, if_neg]
      · exact hedge
      · rintro ⟨-, hh⟩
        exact hint hh

/-! ### Claims -/

/-- C1: for every N×N binary matrix `m`, `computeFinalReachabilityMatrix m`
contains every edge of `m`, is transitive, has 0/1 cells, and — when `m` is
reflexive — a cell is `1` exactly when the reflexive transitive closure of
`m`'s edge relation connects its indices. -/
theorem claim_C1 (m : BinaryMatrix)
    (hsq : ∀ row ∈ m, row.length = m.length)
    (hbin : ∀ row ∈ m, ∀ v ∈ row, v = 0 ∨ v = 1) :
    (∀ i j, cell m i j = 1 → cell (computeFinalReachabilityMatrix m) i j = 1)
    ∧ (∀ i j k, cell (computeFinalReachabilityMatrix m) i k = 1 →
        cell (computeFinalReachabilityMatrix m) k j = 1 →
        cell (computeFinalReachabilityMatrix m) i j = 1)
    ∧ (∀ i j, cell (computeFinalReachabilityMatrix m) i j = 0
        ∨ cell (computeFinalReachabilityMatrix m) i j = 1)
    ∧ ((∀ i, i < m.length → cell m i i = 1) →
        ∀ i j, i < m.length → j < m.length →
          (cell (computeFinalReachabilityMatrix m) i j = 1
            ↔ Relation.ReflTransGen (fun a b => cell m a b = 1) i j)) := by
  refine ⟨fun i j h => cfrm_superset m hsq i j h,
    fun i j k h1 h2 => cfrm_trans m hsq i k j h1 h2,
    fun i j => cfrm_binary m hbin i j,
    fun hrefl i j hi hj => cfrm_rtc m hsq hrefl i j hi hj⟩

theorem claim_C1_witness :
    cell (computeFinalReachabilityMatrix [[1, 1], [0, 1]]) 0 1 = 1 :=
  (claim_C1 [[1, 1], [0, 1]] (by decide) (by decide)).1 0 1 (by decide)

/-- C2: for every matrix, `performLevelPartitioning` (a total function)
emits levels whose element lists concatenate to a permutation of
`[0, N)` — so every index appears in exactly one level, exactly once —
numbered contiguously `1, 2, ..., L` with `L ≤ N`, and the result equals
the uncapped loop: the `N + 5` cap is never the reason the loop stops. -/
theorem claim_C2 (frm : BinaryMatrix) :
    ((((performLevelPartitioning frm).map LevelPartition.elements).flatten).Perm
        (List.range frm.length))
    ∧ (∀ x, (((performLevelPartitioning frm).map
          LevelPartition.elements).flatten).count x
        = if x < frm.length then 1 else 0)
    ∧ (performLevelPartitioning frm).map LevelPartition.level
        = List.range' 1 (performLevelPartitioning frm).length 1
    ∧ (performLevelPartitioning frm).length ≤ frm.length
    ∧ performLevelPartitioning frm
        = partitionNC frm (List.range frm.length) 1 := by
  unfold performLevelPartitioning
  have hperm := partitionGo_flatten_perm frm (frm.length + 5)
    (List.range frm.length) 1 (by simp)
  refine ⟨hperm, ?_, partitionGo_levels_range frm _ _ 1, ?_,
    partitionGo_eq_NC frm _ _ 1 (by simp)⟩
  · intro x
    rw [hperm.count_eq]
    by_cases hx : x < frm.length
    · rw [if_pos hx]
      exact List.count_eq_one_of_mem (List.nodup_range frm.length)
        (List.mem_range.mpr hx)
    · rw [if_neg hx]
      exact List.count_eq_zero_of_not_mem
        (fun h => hx (List.mem_range.mp h))
  · have := partitionGo_length_le frm (frm.length + 5)
      (List.range frm.length) 1 (by simp)
    simpa using this

/-- C7: for every size, identifier list and lookup, the bundle returned by
`runISMAnalysis` has `1` on the diagonals of the IRM and the FRM and `0` on
the diagonal of the canonical matrix. -/
theorem claim_C7 (size : Nat) (ids : List String)
    (ssim : String → String → Option SSIMValue) :
    ∀ i, i < size →
      cell (runISMAnalysis size ids ssim).initialReachabilityMatrix i i = 1
      ∧ cell (runISMAnalysis size ids ssim).finalReachabilityMatrix i i = 1
      ∧ cell (runISMAnalysis size ids ssim).canonicalMatrix i i = 0 := by
  intro i hi
  unfold runISMAnalysis
  have hsq : ∀ row ∈ convertSSIMToIRM size ids ssim,
      row.length = (convertSSIMToIRM size ids ssim).length := by
    intro row hrow
    simp only [convertSSIMToIRM, length_ofFun]
    simp only [convertSSIMToIRM] at hrow
    exact rows_ofFun size _ row hrow
  refine ⟨irm_diag size ids ssim i hi, ?_, canon_diag _ i⟩
  exact cfrm_superset _ hsq i i (irm_diag size ids ssim i hi)

theorem claim_C7_witness :
    cell (runISMAnalysis 2 ["a", "b"]
        (fun _ _ => none)).initialReachabilityMatrix 0 0 = 1
    ∧ cell (runISMAnalysis 2 ["a", "b"]
        (fun _ _ => none)).finalReachabilityMatrix 0 0 = 1
    ∧ cell (runISMAnalysis 2 ["a", "b"]
        (fun _ _ => none)).canonicalMatrix 0 0 = 0 :=
  claim_C7 2 ["a", "b"] (fun _ _ => none) 0 (by decide)

/-- C9: in the reference-level model, `computeFinalReachabilityMatrix` and
`getCanonicalMatrix` leave every cell of their argument matrix unchanged:
all their writes go through the freshly allocated row references of the
copy, so the argument reads back identically after either call. -/
theorem claim_C9 (h : RowHeap) (irm frm : List Nat)
    (hirm : ∀ r ∈ irm, r < h.length) (hfrm : ∀ r ∈ frm, r < h.length) :
    readMat (computeFinalReachabilityMatrixH h irm).1 irm = readMat h irm
    ∧ readMat (getCanonicalMatrixH h frm).1 frm = readMat h frm :=
  ⟨readMat_congr (frames_computeFinalReachabilityMatrixH h irm) hirm,
   readMat_congr (frames_getCanonicalMatrixH h frm) hfrm⟩

theorem claim_C9_witness :
    readMat (computeFinalReachabilityMatrixH [[1, 1], [0, 1]] [0, 1]).1 [0, 1]
      = readMat [[1, 1], [0, 1]] [0, 1]
    ∧ readMat (getCanonicalMatrixH [[1, 1], [0, 1]] [0, 1]).1 [0, 1]
      = readMat [[1, 1], [0, 1]] [0, 1] :=
  claim_C9 [[1, 1], [0, 1]] [0, 1] [0, 1] (by decide) (by decide)

/-- C10: in every level emitted by `performLevelPartitioning`, the element
indices are in strictly ascending order: the remaining set is consumed in
insertion order `0, ..., N - 1` and filtering preserves that order. -/
theorem claim_C10 (frm : BinaryMatrix) :
    ∀ lv ∈ performLevelPartitioning frm,
      lv.elements.Pairwise (· < ·) := by
  intro lv hlv
  exact partitionGo_sorted frm (frm.length + 5) (List.range frm.length) 1
    (List.pairwise_lt_range frm.length) lv hlv

theorem claim_C10_witness :
    ([0, 1] : List Nat).Pairwise (· < ·) :=
  claim_C10 [[1, 0], [0, 1]] ⟨1, [0, 1]⟩ (by decide)

/-- The SSIM lookup of Scenario C (used for C4): the single judgment
`(F1, F2) = O`. -/
def ssimC4 : String → String → Option SSIMValue := fun a b =>
  if a = "F1" ∧ b = "F2" then some SSIMValue.O else none

/-- C4 counterexample: with N = 2 and the single judgment `(0,1) = O`, the
FRM has no cross edges, but the level partition is ONE level containing
both elements — both isolated elements qualify in the first iteration
(`R(i) = {i} ⊆ A(i)`), so the code does not emit two singleton levels as
the claim states. -/
theorem claim_C4_counterexample :
    (runISMAnalysis 2 ["F1", "F2"] ssimC4).finalReachabilityMatrix
      = [[1, 0], [0, 1]]
    ∧ (runISMAnalysis 2 ["F1", "F2"] ssimC4).levels
      = [⟨1, [0, 1]⟩]
    ∧ ¬ (runISMAnalysis 2 ["F1", "F2"] ssimC4).levels.length = 2 := by
  decide

/-- C4 amended: for N = 2 with the single relation judgment `(0,1) = O`,
the pipeline produces an FRM with no cross edges and the level partition
is a single level, level 1, containing both elements `[0, 1]`. -/
theorem claim_C4 :
    (runISMAnalysis 2 ["F1", "F2"] ssimC4).finalReachabilityMatrix
      = [[1, 0], [0, 1]]
    ∧ (runISMAnalysis 2 ["F1", "F2"] ssimC4).levels = [⟨1, [0, 1]⟩] := by
  decide

/-- The SSIM lookup of Scenario A (used for C6): `(F1, F2) = V`,
`(F2, F3) = V`, `(F1, F3) = O`. -/
def ssimC6 : String → String → Option SSIMValue := fun a b =>
  if a = "F1" ∧ b = "F2" then some SSIMValue.V
  else if a = "F2" ∧ b = "F3" then some SSIMValue.V
  else if a = "F1" ∧ b = "F3" then some SSIMValue.O
  else none

/-- C6: Scenario A — N = 3 with `(0,1) = V`, `(1,2) = V`, `(0,2) = O`
yields the IRM with exactly the edges 0→1 and 1→2 plus self-loops, the FRM
with the additional transitive edge 0→2, and levels `[{2}, {1}, {0}]` in
that order. -/
theorem claim_C6 :
    (runISMAnalysis 3 ["F1", "F2", "F3"] ssimC6).initialReachabilityMatrix
      = [[1, 1, 0], [0, 1, 1], [0, 0, 1]]
    ∧ (runISMAnalysis 3 ["F1", "F2", "F3"] ssimC6).finalReachabilityMatrix
      = [[1, 1, 1], [0, 1, 1], [0, 0, 1]]
    ∧ (runISMAnalysis 3 ["F1", "F2", "F3"] ssimC6).levels
      = [⟨1, [2]⟩, ⟨2, [1]⟩, ⟨3, [0]⟩] := by
  decide

theorem transGen_empty_rel {r : Nat → Nat → Prop} (h : ∀ a b, ¬ r a b)
    {x y : Nat} : ¬ Relation.TransGen r x y := by
  intro ht
  induction ht with
  | single hs => exact h _ _ hs
  | tail _ hs _ => exact h _ _ hs

/-- C3 counterexample: the all-ones 3×3 matrix is reflexive and transitive
(a valid closure — the complete strongly connected component), it has the
edge 0→1 with 0 ≠ 1, yet `getCanonicalMatrix` removes every edge (each
edge has a third vertex as a two-hop intermediate), so no canonical-matrix
path connects 0 to 1: the reduction disconnects a pair the closure
connects, refuting the claim as stated. -/
theorem claim_C3_counterexample :
    (∀ i, i < 3 → cell [[1, 1, 1], [1, 1, 1], [1, 1, 1]] i i = 1)
    ∧ (∀ a, a < 3 → ∀ b, b < 3 → ∀ c, c < 3 →
        cell [[1, 1, 1], [1, 1, 1], [1, 1, 1]] a b = 1 →
        cell [[1, 1, 1], [1, 1, 1], [1, 1, 1]] b c = 1 →
        cell [[1, 1, 1], [1, 1, 1], [1, 1, 1]] a c = 1)
    ∧ cell [[1, 1, 1], [1, 1, 1], [1, 1, 1]] 0 1 = 1
    ∧ (0 : Nat) ≠ 1
    ∧ ¬ Relation.TransGen
        (fun a b =>
          cell (getCanonicalMatrix [[1, 1, 1], [1, 1, 1], [1, 1, 1]]) a b = 1)
        0 1 := by
  refine ⟨by decide, by decide, by decide, by decide, transGen_empty_rel ?_⟩
  intro a b hr
  rw [show getCanonicalMatrix [[1, 1, 1], [1, 1, 1], [1, 1, 1]]
      = [[0, 0, 0], [0, 0, 0], [0, 0, 0]] from by decide] at hr
  have hab := cell_lt_of_eq_one (by decide) hr
  have hz : ∀ x, x < 3 → ∀ y, y < 3 →
      ¬ cell [[0, 0, 0], [0, 0, 0], [0, 0, 0]] x y = 1 := by decide
  exact hz a hab.1 b hab.2 hr

/-- C3 amended: for every reflexive transitive ANTISYMMETRIC N×N closure
matrix (no two distinct mutually reachable elements) and every pair
`i ≠ j` with `FRM[i][j] = 1`, the canonical matrix either keeps the direct
edge or contains a path of canonical-matrix edges from `i` to `j` (a
direct kept edge is the one-step path).  The antisymmetry hypothesis is
forced by the counterexample: on closures with a non-trivial strongly
connected component the reduction can disconnect connected pairs. -/
theorem claim_C3_amended (frm : BinaryMatrix)
    (hsq : ∀ row ∈ frm, row.length = frm.length)
    (hrefl : ∀ i, i < frm.length → cell frm i i = 1)
    (htrans : ∀ a b c, cell frm a b = 1 → cell frm b c = 1 →
      cell frm a c = 1)
    (hanti : ∀ a b, cell frm a b = 1 → cell frm b a = 1 → a = b)
    (i j : Nat) (hij : i ≠ j) (hedge : cell frm i j = 1) :
    Relation.TransGen
      (fun a b => cell (getCanonicalMatrix frm) a b = 1) i j :=
  canon_reachable_aux frm hsq hrefl htrans hanti
    (interval frm i j).card i j le_rfl hij hedge

theorem claim_C3_amended_witness :
    Relation.TransGen
      (fun a b => cell (getCanonicalMatrix [[1, 1], [0, 1]]) a b = 1)
      0 1 := by
  refine claim_C3_amended [[1, 1], [0, 1]] (by decide) (by decide)
    ?_ ?_ 0 1 (by decide) (by decide)
  · intro a b c h1 h2
    have hb1 := cell_lt_of_eq_one (by decide) h1
    have hb2 := cell_lt_of_eq_one (by decide) h2
    have hd : ∀ x, x < 2 → ∀ y, y < 2 → ∀ z, z < 2 →
        cell [[1, 1], [0, 1]] x y = 1 → cell [[1, 1], [0, 1]] y z = 1 →
        cell [[1, 1], [0, 1]] x z = 1 := by decide
    exact hd a hb1.1 b hb1.2 c hb2.2 h1 h2
  · intro a b h1 h2
    have hb1 := cell_lt_of_eq_one (by decide) h1
    have hd : ∀ x, x < 2 → ∀ y, y < 2 →
        cell [[1, 1], [0, 1]] x y = 1 → cell [[1, 1], [0, 1]] y x = 1 →
        x = y := by decide
    exact hd a hb1.1 b hb1.2 h1 h2

theorem ofFun_congr {n : Nat} {f g : Mat}
    (h : ∀ a b, a < n → b < n → f a b = g a b) : ofFun n f = ofFun n g := by
  unfold ofFun
  refine List.map_congr_left ?_
  intro i hi
  refine List.map_congr_left ?_
  intro j hj
  exact h i j (List.mem_range.mp hi) (List.mem_range.mp hj)

/-- C5: `convertSSIMToIRM` builds an N×N matrix with diagonal `1` whose
off-diagonal pair `(M[i][j], M[j][i])`, for `i < j`, is exactly the spec
table applied to the judgment looked up at `(ids[i], ids[j])`; a missing
entry (or missing identifier) yields `O` without any error, and the result
depends on the lookup only through the upper-triangle queries
`(ids[i], ids[j])`, `i < j` — the lookup at `(ids[j], ids[i])` is never
consulted. -/
theorem claim_C5 (size : Nat) (ids : List String)
    (ssim : String → String → Option SSIMValue) :
    (convertSSIMToIRM size ids ssim).length = size
    ∧ (∀ row ∈ convertSSIMToIRM size ids ssim, row.length = size)
    ∧ (∀ i, i < size → cell (convertSSIMToIRM size ids ssim) i i = 1)
    ∧ (∀ i j, i < j → j < size →
        cell (convertSSIMToIRM size ids ssim) i j
          = (specEncode (lookupVal ssim ids[i]? ids[j]?)).1
        ∧ cell (convertSSIMToIRM size ids ssim) j i
          = (specEncode (lookupVal ssim ids[i]? ids[j]?)).2)
    ∧ (∀ oi oj, (match oi, oj with
        | some idI, some idJ => ssim idI idJ
        | _, _ => none) = none →
        lookupVal ssim oi oj = SSIMValue.O)
    ∧ (∀ ssim2 : String → String → Option SSIMValue,
        (∀ i j, i < j → j < size →
          lookupVal ssim2 ids[i]? ids[j]?
            = lookupVal ssim ids[i]? ids[j]?) →
        convertSSIMToIRM size ids ssim2 = convertSSIMToIRM size ids ssim)
    := by
  refine ⟨by simp [convertSSIMToIRM, length_ofFun], ?_, irm_diag size ids ssim,
    fun i j hij hj => irm_upper size ids ssim hij hj, ?_, ?_⟩
  · intro row hrow
    simp only [convertSSIMToIRM] at hrow
    exact rows_ofFun size _ row hrow
  · intro oi oj hnone
    cases oi with
    | none => rfl
    | some idI =>
      cases oj with
      | none => rfl
      | some idJ =>
        simp [lookupVal, show ssim idI idJ = none from hnone]
  · intro ssim2 hagree
    unfold convertSSIMToIRM
    refine ofFun_congr ?_
    intro a b ha hb
    rw [irmAux_cell, irmAux_cell]
    split_ifs with h1 h2 h3
    · rfl
    · rw [hagree a b h2.1 h2.2]
    · rw [hagree b a h3.1 h3.2]
    · rfl

theorem claim_C5_witness :
    cell (convertSSIMToIRM 2 ["a", "b"]
      (fun x y => if x = "a" ∧ y = "b" then some SSIMValue.V else none)) 0 1
      = 1
    ∧ cell (convertSSIMToIRM 2 ["a", "b"]
      (fun x y => if x = "a" ∧ y = "b" then some SSIMValue.V else none)) 1 0
      = 0 := by
  have h := (claim_C5 2 ["a", "b"]
    (fun x y => if x = "a" ∧ y = "b" then some SSIMValue.V else none)).2.2.2.1
    0 1 (by decide) (by decide)
  rw [h.1, h.2]
  constructor <;> decide

/-- C8: when the identifier list's length differs from N (including a
shorter list), `runISMAnalysis` is total (no abort): it returns a complete
bundle whose three matrices are all N×N and whose levels partition
`[0, N)`, and every pair touching a missing identifier gets the `O`
encoding (both cells 0). -/
theorem claim_C8 (size : Nat) (ids : List String)
    (ssim : String → String → Option SSIMValue)
    (_hmis : ids.length ≠ size) :
    (runISMAnalysis size ids ssim).initialReachabilityMatrix.length = size
    ∧ (∀ row ∈ (runISMAnalysis size ids ssim).initialReachabilityMatrix,
        row.length = size)
    ∧ (runISMAnalysis size ids ssim).finalReachabilityMatrix.length = size
    ∧ (∀ row ∈ (runISMAnalysis size ids ssim).finalReachabilityMatrix,
        row.length = size)
    ∧ (runISMAnalysis size ids ssim).canonicalMatrix.length = size
    ∧ (∀ row ∈ (runISMAnalysis size ids ssim).canonicalMatrix,
        row.length = size)
    ∧ ((((runISMAnalysis size ids ssim).levels.map
        LevelPartition.elements).flatten).Perm (List.range size))
    ∧ (∀ i j, i < j → j < size → ids.length ≤ j →
        cell (runISMAnalysis size ids ssim).initialReachabilityMatrix i j = 0
        ∧ cell (runISMAnalysis size ids ssim).initialReachabilityMatrix j i
          = 0) := by
  have hlen_irm : (convertSSIMToIRM size ids ssim).length = size := by
    simp [convertSSIMToIRM, length_ofFun]
  have hlen_frm : (computeFinalReachabilityMatrix
      (convertSSIMToIRM size ids ssim)).length = size := by
    simp [computeFinalReachabilityMatrix, hlen_irm, length_ofFun]
  simp only [runISMAnalysis]
  refine ⟨hlen_irm, ?_, hlen_frm, ?_, ?_, ?_, ?_, ?_⟩
  · intro row hrow
    simp only [convertSSIMToIRM] at hrow
    exact rows_ofFun size _ row hrow
  · intro row hrow
    simp only [computeFinalReachabilityMatrix] at hrow
    rw [hlen_irm] at hrow
    exact rows_ofFun size _ row hrow
  · simp [getCanonicalMatrix, hlen_frm, length_ofFun]
  · intro row hrow
    simp only [getCanonicalMatrix] at hrow
    rw [hlen_frm] at hrow
    exact rows_ofFun size _ row hrow
  · have hr : (List.range (computeFinalReachabilityMatrix
        (convertSSIMToIRM size ids ssim)).length).Perm (List.range size) := by
      rw [hlen_frm]
    unfold performLevelPartitioning
    exact List.Perm.trans (partitionGo_flatten_perm _ _ _ 1 (by simp)) hr
  · intro i j hij hj hlej
    have hnone : ids[j]? = none := List.getElem?_eq_none hlej
    have hO : lookupVal ssim ids[i]? ids[j]? = SSIMValue.O := by
      rw [hnone]
      cases ids[i]? <;> rfl
    have h := irm_upper size ids ssim hij hj
    constructor
    · rw [h.1, hO]
      rfl
    · rw [h.2, hO]
      rfl

theorem claim_C8_witness :
    (["a"] : List String).length ≠ 2
    ∧ (runISMAnalysis 2 ["a"]
        (fun _ _ => none)).initialReachabilityMatrix.length = 2
    ∧ cell (runISMAnalysis 2 ["a"]
        (fun _ _ => none)).initialReachabilityMatrix 0 1 = 0 :=
  ⟨by decide, (claim_C8 2 ["a"] (fun _ _ => none) (by decide)).1,
   ((claim_C8 2 ["a"] (fun _ _ => none) (by decide)).2.2.2.2.2.2.2
     0 1 (by decide) (by decide) (by decide)).1⟩

end ISM
